/-
Verification of the sweepstake assignment program (src/sweepstake.py).

The program distributes a ranked list of teams among participants:
it splits the teams into consecutive segments of size
`min(len(participants), len(teams))` and, within each segment, draws a
participant uniformly at random (without replacement inside the segment)
for each team in ranking order.

Embedding notes:
* Python lists become Lean `List String`; the `assignments` dict becomes
  an association list `List (String × List String)` whose keys are the
  distinct participant names in first-seen order (Python 3.7+ dict
  insertion-order semantics for `{p: [] for p in participants}`).
* `random.choice(pool)` is modelled by an oracle stream `σ : Nat → Nat`
  together with a draw counter `k`: the draw numbered `k` picks the element
  at index `σ k % pool.length`.  Quantifying over all `σ` covers every
  possible random outcome, and `σ k % pool.length` ranges over every index
  of a nonempty pool.  A draw from an empty pool (Python `IndexError`) and
  an update of a missing dict key (Python `KeyError`) are modelled by
  `Option.none`.
* The `while` loop of `segment_teams` makes no progress when the segment
  size `min(len(participants), len(teams))` is `0` while teams remain,
  and then runs forever.  The loop is embedded with a fuel argument set to
  `teams.length` at the top level; when the segment size is nonzero each
  iteration removes at least one team, so this fuel is never exhausted
  (proved below), and the explicit zero-segment-size check returns `none`,
  so `none` models exactly the nonterminating executions.
-/
import Mathlib

set_option autoImplicit false

namespace SweepstakePy

/-- The assignments dict: keys are participant names, values their teams. -/
abbrev Assignments := List (String × List String)

/-- The keys of an assignments dict, in order. -/
def keysOf (a : Assignments) : List String := a.map Prod.fst

/-- All values of an assignments dict, concatenated in key order. -/
def valuesJoin (a : Assignments) : List String := (a.map Prod.snd).flatten

/-- Dict value lookup (first matching key); `[]` when the key is absent
(the callers below only look up present keys). -/
def lookupA : Assignments → String → List String
  | [], _ => []
  | (q, v) :: rest, p => if q = p then v else lookupA rest p

/-- First-seen-order deduplication, the key sequence produced by the Python
dict comprehension `{participant: [] for participant in self.participants}`:
`seen` accumulates the keys already inserted. -/
def distinctKeysAux (seen : List String) : List String → List String
  | [] => []
  | p :: rest =>
    if p ∈ seen then distinctKeysAux seen rest
    else p :: distinctKeysAux (seen ++ [p]) rest

/-- The distinct participant names in first-seen order. -/
def distinctKeys (participants : List String) : List String :=
  distinctKeysAux [] participants

/-- `self.assignments = {participant: [] for participant in self.participants}`. -/
def initAssignments (participants : List String) : Assignments :=
  (distinctKeys participants).map (fun p => (p, []))

/-- `self.assignments[participant].append(team)`: append `team` to the entry
of key `participant`; `none` models Python's `KeyError` when absent. -/
def appendAssign : Assignments → String → String → Option Assignments
  | [], _, _ => none
  | (q, v) :: rest, p, t =>
    if q = p then some ((q, v ++ [t]) :: rest)
    else (appendAssign rest p t).map (fun a => (q, v) :: a)

/-- `take_segment`: `remaining_teams[:segment_index], remaining_teams[segment_index:]`
with `segment_index = min(len(self.participants), len(self.teams))`. -/
def take_segment (segmentIndex : Nat) (remaining : List String) :
    List String × List String :=
  (remaining.take segmentIndex, remaining.drop segmentIndex)

/-- The `while len(remaining_teams) > 0` loop of `segment_teams`.  `fuel`
bounds the number of iterations; the explicit `segmentIndex = 0` check
returns `none` for the executions in which the loop runs forever. -/
def segmentLoop (segmentIndex : Nat) : Nat → List String → Option (List (List String))
  | _, [] => some []
  | 0, _ :: _ => none
  | fuel + 1, t :: rest =>
    if segmentIndex = 0 then none
    else
      match segmentLoop segmentIndex fuel (take_segment segmentIndex (t :: rest)).2 with
      | none => none
      | some segs => some ((take_segment segmentIndex (t :: rest)).1 :: segs)

/-- `segment_teams`: segment the full team list; `none` models the
nonterminating executions (zero segment size with teams remaining). -/
def segment_teams (participants teams : List String) : Option (List (List String)) :=
  segmentLoop (min participants.length teams.length) teams.length teams

/-- The `Sweepstake` dataclass after `__post_init__`. -/
structure Sweepstake where
  participants : List String
  teams : List String
  segmented_teams : List (List String)
  assignments : Assignments
  deriving DecidableEq

/-- Construction (`__init__` plus `__post_init__`): run segmentation, then
build the empty assignments dict; `none` when segmentation never returns. -/
def mkSweepstake (participants teams : List String) : Option Sweepstake :=
  match segment_teams participants teams with
  | none => none
  | some segs => some ⟨participants, teams, segs, initAssignments participants⟩

/-- `random.choice(pool)` for the draw numbered `k` under oracle `σ`:
the element at index `σ k % pool.length`. -/
def chooseFrom (pool : List String) (c : Nat) : String :=
  pool.getD (c % pool.length) ""

/-- The `for team in segment` loop of `assign_from_segments`: draw a
participant for each team in segment order, append the team to their
entry, and remove the drawn participant from the pool.  Returns the
updated dict, the remaining pool, and the next draw number; `none` when a
draw happens on an empty pool (`IndexError`) or a key is missing. -/
def drawLoop (σ : Nat → Nat) :
    List String → List String → Assignments → Nat →
    Option (Assignments × List String × Nat)
  | [], pool, a, k => some (a, pool, k)
  | _ :: _, [], _, _ => none
  | t :: rest, q :: pool, a, k =>
    let p := chooseFrom (q :: pool) (σ k)
    match appendAssign a p t with
    | none => none
    | some a₁ => drawLoop σ rest ((q :: pool).erase p) a₁ (k + 1)

/-- `assign_from_segments`: the draw pool starts as `self.participants.copy()`. -/
def assign_from_segments (σ : Nat → Nat) (participants segment : List String)
    (a : Assignments) (k : Nat) : Option (Assignments × Nat) :=
  match drawLoop σ segment participants a k with
  | none => none
  | some (a₁, _, k₁) => some (a₁, k₁)

/-- The `for segment in self.segmented_teams` loop of `assign_teams`. -/
def assignSegsLoop (σ : Nat → Nat) (participants : List String) :
    List (List String) → Assignments → Nat → Option (Assignments × Nat)
  | [], a, k => some (a, k)
  | seg :: segs, a, k =>
    match assign_from_segments σ participants seg a k with
    | none => none
    | some (a₁, k₁) => assignSegsLoop σ participants segs a₁ k₁

/-- `assign_teams`: assign every segment in order, mutating `assignments`;
the draw counter `k` records how many random draws have happened. -/
def assign_teams (σ : Nat → Nat) (s : Sweepstake) (k : Nat) :
    Option (Sweepstake × Nat) :=
  match assignSegsLoop σ s.participants s.segmented_teams s.assignments k with
  | none => none
  | some (a₁, k₁) => some ({ s with assignments := a₁ }, k₁)

/-- `segment_teams` as a method of the state. -/
def Sweepstake.segmentTeamsOf (s : Sweepstake) : Option (List (List String)) :=
  segment_teams s.participants s.teams

/-- A fixed oracle for concrete runs: every draw picks index `0`. -/
def zeroChoice : Nat → Nat := fun _ => 0

/-! ### Segmentation lemmas -/

theorem segmentLoop_nil (i fuel : Nat) : segmentLoop i fuel [] = some [] := by
  cases fuel <;> rfl

/-- With a nonzero segment size and enough fuel, the segmentation loop
returns chunks that tile the input: every chunk is nonempty of length at
most the segment size, and every chunk but the last has exactly the
segment size. -/
theorem segmentLoop_spec (i : Nat) (hi : 1 ≤ i) :
    ∀ fuel l, l.length ≤ fuel →
      ∃ segs, segmentLoop i fuel l = some segs ∧
        segs.flatten = l ∧
        (∀ s ∈ segs, s ≠ [] ∧ s.length ≤ i) ∧
        (∀ s ∈ segs.dropLast, s.length = i) := by
  intro fuel
  induction fuel with
  | zero =>
    intro l hl
    have : l = [] := List.eq_nil_of_length_eq_zero (Nat.le_zero.mp hl)
    subst this
    exact ⟨[], segmentLoop_nil i 0, rfl, by simp, by simp⟩
  | succ fuel ih =>
    intro l hl
    match l with
    | [] => exact ⟨[], segmentLoop_nil i (fuel + 1), rfl, by simp, by simp⟩
    | t :: rest =>
      have hi0 : i ≠ 0 := by omega
      have hdroplen : ((t :: rest).drop i).length ≤ fuel := by
        rw [List.length_drop]
        simp only [List.length_cons] at hl ⊢
        omega
      obtain ⟨segs, hsegs, hflat, hbound, hdrop⟩ := ih ((t :: rest).drop i) hdroplen
      refine ⟨(t :: rest).take i :: segs, ?_, ?_, ?_, ?_⟩
      · simp only [segmentLoop, take_segment, hi0, if_false, hsegs]
      · simp [hflat]
      · intro s hs
        rcases List.mem_cons.mp hs with hs | hs
        · constructor
          · rw [hs]
            match i, hi with
            | i + 1, _ => simp
          · rw [hs]
            exact List.length_take_le i (t :: rest)
        · exact hbound s hs
      · intro s hs
        match segs, hflat with
        | [], _ => simp at hs
        | s₀ :: segs', hflat =>
          have hne : ((t :: rest).take i :: s₀ :: segs').dropLast =
              (t :: rest).take i :: (s₀ :: segs').dropLast := by
            simp [List.dropLast_cons_of_ne_nil]
          rw [hne] at hs
          rcases List.mem_cons.mp hs with hs | hs
          · -- the head chunk is full: the dropped part is nonempty,
            -- so `i` is strictly below the input length
            have hs₀ : s₀ ≠ [] := (hbound s₀ (by simp)).1
            have hdropne : (t :: rest).drop i ≠ [] := by
              rw [← hflat]
              simp only [List.flatten_cons]
              intro hcon
              exact hs₀ (List.append_eq_nil.mp hcon).1
            have hlt : i < (t :: rest).length := by
              by_contra hge
              exact hdropne (List.drop_eq_nil_of_le (by omega))
            rw [hs, List.length_take]
            omega
          · exact hdrop s hs

/-- With a nonzero segment size dividing the input length, every chunk is
full and the chunk count times the segment size is the input length. -/
theorem segmentLoop_exact (i : Nat) (hi : 1 ≤ i) :
    ∀ fuel l, l.length ≤ fuel → i ∣ l.length →
      ∃ segs, segmentLoop i fuel l = some segs ∧
        (∀ s ∈ segs, s.length = i) ∧ segs.length * i = l.length := by
  intro fuel
  induction fuel with
  | zero =>
    intro l hl _
    have : l = [] := List.eq_nil_of_length_eq_zero (Nat.le_zero.mp hl)
    subst this
    exact ⟨[], segmentLoop_nil i 0, by simp, by simp⟩
  | succ fuel ih =>
    intro l hl hdvd
    match l with
    | [] => exact ⟨[], segmentLoop_nil i (fuel + 1), by simp, by simp⟩
    | t :: rest =>
      have hi0 : i ≠ 0 := by omega
      have hile : i ≤ (t :: rest).length :=
        Nat.le_of_dvd (by simp) hdvd
      have hdroplen : ((t :: rest).drop i).length ≤ fuel := by
        rw [List.length_drop]
        simp only [List.length_cons] at hl ⊢
        omega
      have hdropdvd : i ∣ ((t :: rest).drop i).length := by
        rw [List.length_drop]
        exact (Nat.dvd_sub' hdvd dvd_rfl)
      obtain ⟨segs, hsegs, hfull, hcount⟩ := ih ((t :: rest).drop i) hdroplen hdropdvd
      refine ⟨(t :: rest).take i :: segs, ?_, ?_, ?_⟩
      · simp only [segmentLoop, take_segment, hi0, if_false, hsegs]
      · intro s hs
        rcases List.mem_cons.mp hs with hs | hs
        · rw [hs, List.length_take]
          omega
        · exact hfull s hs
      · rw [List.length_drop] at hcount
        have hmul : (segs.length + 1) * i = segs.length * i + i := by ring
        simp only [List.length_cons] at hcount hile ⊢
        omega

/-- Segmentation succeeds with at least one participant, with chunks
tiling the team list. -/
theorem segment_teams_some (participants teams : List String)
    (h : 1 ≤ participants.length) :
    ∃ segs, segment_teams participants teams = some segs ∧
      segs.flatten = teams ∧
      (∀ s ∈ segs, s ≠ [] ∧ s.length ≤ min participants.length teams.length) ∧
      (∀ s ∈ segs.dropLast, s.length = min participants.length teams.length) := by
  match teams with
  | [] =>
    exact ⟨[], segmentLoop_nil _ _, rfl, by simp, by simp⟩
  | t :: rest =>
    have hmin : 1 ≤ min participants.length (t :: rest).length := by
      simp only [List.length_cons]
      omega
    exact segmentLoop_spec _ hmin _ _ le_rfl

/-- C1: the claim says construction with zero participants and a nonempty
team list fails fast with an explicit `InvalidInput` error.  The code does
not: `segment_teams` computes segment size `min(0, len(teams)) = 0`, so
`take_segment` returns an empty segment and an unchanged remainder and the
`while` loop never terminates (modelled by `none`); no error of any kind
is raised.  This theorem evaluates the code at the failing inputs. -/
theorem mkSweepstake_empty_participants_diverges (teams : List String)
    (h : teams ≠ []) : mkSweepstake [] teams = none := by
  match teams, h with
  | t :: rest, _ => rfl

/-- Witness: the concrete failing input of the claim. -/
theorem mkSweepstake_empty_participants_diverges_witness :
    (["T1"] : List String) ≠ [] ∧ mkSweepstake [] ["T1"] = none :=
  ⟨by decide, mkSweepstake_empty_participants_diverges ["T1"] (by decide)⟩

/-! ### Dict construction lemmas -/

theorem mem_distinctKeysAux (x : String) :
    ∀ (l seen : List String), x ∈ l → x ∈ seen ∨ x ∈ distinctKeysAux seen l := by
  intro l
  induction l with
  | nil => intro seen hx; simp at hx
  | cons p rest ih =>
    intro seen hx
    by_cases hp : p ∈ seen
    · rcases List.mem_cons.mp hx with hx | hx
      · exact Or.inl (hx ▸ hp)
      · simpa [distinctKeysAux, hp] using ih seen hx
    · rcases List.mem_cons.mp hx with hx | hx
      · exact Or.inr (by simp [distinctKeysAux, hp, hx])
      · rcases ih (seen ++ [p]) hx with hseen | hrec
        · rcases List.mem_append.mp hseen with h | h
          · exact Or.inl h
          · exact Or.inr (by simp [distinctKeysAux, hp]; left; simpa using h)
        · exact Or.inr (by simp [distinctKeysAux, hp]; right; exact hrec)

theorem mem_distinctKeys (ps : List String) (p : String) (h : p ∈ ps) :
    p ∈ distinctKeys ps := by
  rcases mem_distinctKeysAux p ps [] h with hc | hc
  · simp at hc
  · exact hc

theorem distinctKeysAux_nodup :
    ∀ (l seen : List String),
      (distinctKeysAux seen l).Nodup ∧ ∀ x ∈ distinctKeysAux seen l, x ∉ seen := by
  intro l
  induction l with
  | nil => intro seen; simp [distinctKeysAux]
  | cons p rest ih =>
    intro seen
    by_cases hp : p ∈ seen
    · simpa [distinctKeysAux, hp] using ih seen
    · obtain ⟨hnd, hns⟩ := ih (seen ++ [p])
      simp only [distinctKeysAux, hp, if_false]
      constructor
      · refine List.nodup_cons.mpr ⟨?_, hnd⟩
        intro hcon
        exact hns p hcon (by simp)
      · intro x hx
        rcases List.mem_cons.mp hx with hx | hx
        · exact hx ▸ hp
        · intro hcon
          exact hns x hx (by simp [hcon])

theorem distinctKeys_nodup (ps : List String) : (distinctKeys ps).Nodup :=
  (distinctKeysAux_nodup ps []).1

theorem distinctKeysAux_sublist :
    ∀ (l seen : List String), (distinctKeysAux seen l).Sublist l := by
  intro l
  induction l with
  | nil => intro seen; simp [distinctKeysAux]
  | cons p rest ih =>
    intro seen
    by_cases hp : p ∈ seen
    · simpa [distinctKeysAux, hp] using (ih seen).trans (List.sublist_cons_self p rest)
    · simpa [distinctKeysAux, hp] using List.Sublist.cons₂ p (ih (seen ++ [p]))

theorem distinctKeys_sublist (ps : List String) : (distinctKeys ps).Sublist ps :=
  distinctKeysAux_sublist ps []

theorem keysOf_init (ps : List String) :
    keysOf (initAssignments ps) = distinctKeys ps := by
  have hcomp : (Prod.fst ∘ fun p : String => (p, ([] : List String))) = id := rfl
  simp only [keysOf, initAssignments, List.map_map, hcomp, List.map_id, distinctKeys]

theorem initAssignments_values (ps : List String) :
    ∀ kv ∈ initAssignments ps, kv.2 = ([] : List String) := by
  intro kv hkv
  obtain ⟨p, _, hp⟩ := List.mem_map.mp hkv
  simp [← hp]

theorem lookupA_of_values_nil (p : String) :
    ∀ (a : Assignments), (∀ kv ∈ a, kv.2 = ([] : List String)) →
      lookupA a p = [] := by
  intro a
  induction a with
  | nil => intro _; rfl
  | cons kv rest ih =>
    intro h
    obtain ⟨q, v⟩ := kv
    have hv : v = [] := h (q, v) (by simp)
    by_cases hq : q = p
    · simp [lookupA, hq, hv]
    · simp only [lookupA, hq, if_false]
      exact ih (fun kv hkv => h kv (List.mem_cons_of_mem _ hkv))

theorem lookupA_init (ps : List String) (p : String) :
    lookupA (initAssignments ps) p = [] :=
  lookupA_of_values_nil p _ (initAssignments_values ps)

theorem valuesJoin_init (ps : List String) :
    valuesJoin (initAssignments ps) = [] := by
  simp [valuesJoin, initAssignments, List.flatten_eq_nil_iff]

/-! ### Draw lemmas -/

theorem chooseFrom_mem (pool : List String) (c : Nat) (h : pool ≠ []) :
    chooseFrom pool c ∈ pool := by
  have hl : c % pool.length < pool.length :=
    Nat.mod_lt _ (List.length_pos.mpr h)
  rw [chooseFrom, List.getD_eq_getElem _ _ hl]
  exact List.getElem_mem hl

theorem appendAssign_some (a : Assignments) (p t : String)
    (h : p ∈ keysOf a) : ∃ a₁, appendAssign a p t = some a₁ := by
  induction a with
  | nil => simp [keysOf] at h
  | cons kv rest ih =>
    obtain ⟨q, v⟩ := kv
    by_cases hq : q = p
    · exact ⟨(q, v ++ [t]) :: rest, by simp [appendAssign, hq]⟩
    · have hp : p ∈ keysOf rest := by
        simp only [keysOf, List.map_cons] at h
        rcases List.mem_cons.mp h with h | h
        · exact absurd h.symm hq
        · exact h
      obtain ⟨a₁, ha₁⟩ := ih hp
      exact ⟨(q, v) :: a₁, by simp [appendAssign, hq, ha₁]⟩

theorem appendAssign_keys (p t : String) :
    ∀ (a a₁ : Assignments), appendAssign a p t = some a₁ →
      keysOf a₁ = keysOf a := by
  intro a
  induction a with
  | nil => intro a₁ h; simp [appendAssign] at h
  | cons kv rest ih =>
    intro a₁ h
    obtain ⟨q, v⟩ := kv
    by_cases hq : q = p
    · subst hq
      simp [appendAssign] at h
      subst h
      simp [keysOf]
    · simp only [appendAssign, hq, if_false, Option.map_eq_some'] at h
      obtain ⟨a₂, ha₂, rfl⟩ := h
      have hk := ih a₂ ha₂
      simp only [keysOf, List.map_cons] at hk ⊢
      rw [hk]

theorem appendAssign_lookup (p t : String) :
    ∀ (a a₁ : Assignments), appendAssign a p t = some a₁ →
      ∀ r, lookupA a₁ r = lookupA a r ++ (if r = p then [t] else []) := by
  intro a
  induction a with
  | nil => intro a₁ h; simp [appendAssign] at h
  | cons kv rest ih =>
    intro a₁ h r
    obtain ⟨q, v⟩ := kv
    by_cases hq : q = p
    · subst hq
      simp [appendAssign] at h
      subst h
      by_cases hr : q = r
      · subst hr
        simp [lookupA]
      · have hrq : ¬ r = q := fun hcon => hr hcon.symm
        simp [lookupA, hr, hrq]
    · simp only [appendAssign, hq, if_false, Option.map_eq_some'] at h
      obtain ⟨a₂, ha₂, rfl⟩ := h
      by_cases hr : q = r
      · have hrp : r ≠ p := fun hcon => hq (hr.trans hcon)
        simp [lookupA, hr, hrp]
      · simp only [lookupA, hr, if_false]
        exact ih a₂ ha₂ r

theorem appendAssign_perm (p t : String) :
    ∀ (a a₁ : Assignments), appendAssign a p t = some a₁ →
      List.Perm (valuesJoin a₁) (t :: valuesJoin a) := by
  intro a
  induction a with
  | nil => intro a₁ h; simp [appendAssign] at h
  | cons kv rest ih =>
    intro a₁ h
    obtain ⟨q, v⟩ := kv
    by_cases hq : q = p
    · subst hq
      simp [appendAssign] at h
      subst h
      simp only [valuesJoin, List.map_cons, List.flatten_cons]
      have hstep : (v ++ [t]) ++ (rest.map Prod.snd).flatten =
          v ++ (t :: (rest.map Prod.snd).flatten) := by simp
      rw [hstep]
      exact List.perm_middle
    · simp only [appendAssign, hq, if_false, Option.map_eq_some'] at h
      obtain ⟨a₂, ha₂, rfl⟩ := h
      simp only [valuesJoin, List.map_cons, List.flatten_cons]
      have h₁ : List.Perm (v ++ (a₂.map Prod.snd).flatten)
          (v ++ (t :: (rest.map Prod.snd).flatten)) :=
        List.Perm.append_left v (ih a₂ ha₂)
      exact h₁.trans List.perm_middle

/-- Master lemma for the `for team in segment` loop: with a pool at least
as large as the segment whose members are all dict keys, the loop
succeeds, performs exactly one draw per team, shrinks the pool by one per
draw, keeps the pool inside the original pool, preserves the key
sequence, adds exactly the segment's teams (as a multiset) to the dict
values, and appends to each name's list only teams of the segment. -/
theorem drawLoop_spec (σ : Nat → Nat) :
    ∀ (seg pool : List String) (a : Assignments) (k : Nat),
      seg.length ≤ pool.length →
      (∀ p ∈ pool, p ∈ keysOf a) →
      ∃ a₁ pool₁,
        drawLoop σ seg pool a k = some (a₁, pool₁, k + seg.length) ∧
        pool₁.length + seg.length = pool.length ∧
        pool₁ ⊆ pool ∧
        keysOf a₁ = keysOf a ∧
        List.Perm (valuesJoin a₁) (seg ++ valuesJoin a) ∧
        (∀ r, ∃ c, lookupA a₁ r = lookupA a r ++ c ∧ c ⊆ seg) := by
  intro seg
  induction seg with
  | nil =>
    intro pool a k _ _
    exact ⟨a, pool, rfl, by simp, fun x hx => hx, rfl, by simp,
      fun r => ⟨[], by simp, by simp⟩⟩
  | cons t rest ih =>
    intro pool a k hlen hkeys
    match pool with
    | [] => simp at hlen
    | q :: pool' =>
      have hp : chooseFrom (q :: pool') (σ k) ∈ q :: pool' :=
        chooseFrom_mem _ _ (by simp)
      obtain ⟨a₁, ha₁⟩ := appendAssign_some a _ t (hkeys _ hp)
      have hkeys₁ := appendAssign_keys _ t _ _ ha₁
      have herase_len :
          ((q :: pool').erase (chooseFrom (q :: pool') (σ k))).length =
            (q :: pool').length - 1 :=
        List.length_erase_of_mem hp
      have herase_sub := List.erase_subset (chooseFrom (q :: pool') (σ k)) (q :: pool')
      have hlen₁ : rest.length ≤
          ((q :: pool').erase (chooseFrom (q :: pool') (σ k))).length := by
        rw [herase_len]
        simp only [List.length_cons] at hlen ⊢
        omega
      have hkeys₂ : ∀ p ∈ (q :: pool').erase (chooseFrom (q :: pool') (σ k)),
          p ∈ keysOf a₁ := fun p hpx => hkeys₁ ▸ hkeys p (herase_sub hpx)
      obtain ⟨a₂, pool₂, hloop, hplen, hpsub, hkeys₃, hperm, hcontrib⟩ :=
        ih ((q :: pool').erase (chooseFrom (q :: pool') (σ k))) a₁ (k + 1)
          hlen₁ hkeys₂
      refine ⟨a₂, pool₂, ?_, ?_, ?_, ?_, ?_, ?_⟩
      · show drawLoop σ (t :: rest) (q :: pool') a k = _
        simp only [drawLoop, ha₁, hloop]
        have hk : k + 1 + rest.length = k + (t :: rest).length := by
          simp only [List.length_cons]
          omega
        rw [hk]
      · rw [herase_len] at hplen
        simp only [List.length_cons] at hplen ⊢
        omega
      · exact fun x hx => herase_sub (hpsub hx)
      · exact hkeys₃.trans hkeys₁
      · have h₁ : List.Perm (valuesJoin a₂) (rest ++ valuesJoin a₁) := hperm
        have h₂ : List.Perm (rest ++ valuesJoin a₁) (rest ++ (t :: valuesJoin a)) :=
          List.Perm.append_left rest (appendAssign_perm _ t _ _ ha₁)
        exact h₁.trans (h₂.trans List.perm_middle)
      · intro r
        obtain ⟨c, hc, hcs⟩ := hcontrib r
        refine ⟨(if r = chooseFrom (q :: pool') (σ k) then [t] else []) ++ c, ?_, ?_⟩
        · rw [hc, appendAssign_lookup _ t _ _ ha₁ r, List.append_assoc]
        · intro x hx
          rcases List.mem_append.mp hx with hx | hx
          · have hxt : x = t := by
              split at hx
              · simpa using hx
              · simp at hx
            simp [hxt]
          · exact List.mem_cons_of_mem t (hcs hx)

/-- With a duplicate-free pool, the loop appends at most one team to any
one name's list (and none to names outside the pool). -/
theorem drawLoop_nodup_lookup (σ : Nat → Nat) :
    ∀ (seg pool : List String) (a a₁ : Assignments) (pool₁ : List String)
      (k k₁ : Nat),
      pool.Nodup →
      drawLoop σ seg pool a k = some (a₁, pool₁, k₁) →
      ∀ r, (lookupA a₁ r).length ≤
        (lookupA a r).length + (if r ∈ pool then 1 else 0) := by
  intro seg
  induction seg with
  | nil =>
    intro pool a a₁ pool₁ k k₁ _ h r
    simp only [drawLoop, Option.some_inj, Prod.mk.injEq] at h
    obtain ⟨rfl, rfl, rfl⟩ := h
    split <;> omega
  | cons t rest ih =>
    intro pool a a₁ pool₁ k k₁ hnd h r
    match pool with
    | [] => simp [drawLoop] at h
    | q :: pool' =>
      simp only [drawLoop] at h
      split at h
      · exact absurd h (by simp)
      · rename_i a' happ
        have hmemc : chooseFrom (q :: pool') (σ k) ∈ q :: pool' :=
          chooseFrom_mem _ _ (by simp)
        have hrec := ih ((q :: pool').erase (chooseFrom (q :: pool') (σ k)))
          a' a₁ pool₁ (k + 1) k₁ (hnd.erase _) h r
        have hupd := appendAssign_lookup _ t _ _ happ r
        by_cases hr : r = chooseFrom (q :: pool') (σ k)
        · have hnm : r ∉ (q :: pool').erase (chooseFrom (q :: pool') (σ k)) :=
            hr ▸ hnd.not_mem_erase
          have hmem : r ∈ q :: pool' := hr ▸ hmemc
          rw [if_neg hnm] at hrec
          rw [hupd, if_pos hr] at hrec
          simp only [List.length_append, List.length_cons, List.length_nil] at hrec
          rw [if_pos hmem]
          omega
        · rw [hupd, if_neg hr, List.append_nil] at hrec
          by_cases hmem : r ∈ q :: pool'
          · rw [if_pos hmem]
            by_cases hmem' : r ∈ (q :: pool').erase (chooseFrom (q :: pool') (σ k))
            · rw [if_pos hmem'] at hrec
              omega
            · rw [if_neg hmem'] at hrec
              omega
          · have hnm' : r ∉ (q :: pool').erase (chooseFrom (q :: pool') (σ k)) :=
              fun hcon => hmem (List.erase_subset _ _ hcon)
            rw [if_neg hnm'] at hrec
            rw [if_neg hmem]
            omega

/-- With a duplicate-free pool drained exactly (segment length = pool
length), every pool member's list grows by exactly one and every other
name's list is unchanged. -/
theorem drawLoop_full_lookup (σ : Nat → Nat) :
    ∀ (seg pool : List String) (a a₁ : Assignments) (pool₁ : List String)
      (k k₁ : Nat),
      pool.Nodup → seg.length = pool.length →
      drawLoop σ seg pool a k = some (a₁, pool₁, k₁) →
      ∀ r, (lookupA a₁ r).length =
        (lookupA a r).length + (if r ∈ pool then 1 else 0) := by
  intro seg
  induction seg with
  | nil =>
    intro pool a a₁ pool₁ k k₁ _ hfull h r
    have hpool : pool = [] :=
      List.eq_nil_of_length_eq_zero (by simpa using hfull.symm)
    subst hpool
    simp only [drawLoop, Option.some_inj, Prod.mk.injEq] at h
    obtain ⟨rfl, rfl, rfl⟩ := h
    simp
  | cons t rest ih =>
    intro pool a a₁ pool₁ k k₁ hnd hfull h r
    match pool with
    | [] => simp [drawLoop] at h
    | q :: pool' =>
      simp only [drawLoop] at h
      split at h
      · exact absurd h (by simp)
      · rename_i a' happ
        have hmemc : chooseFrom (q :: pool') (σ k) ∈ q :: pool' :=
          chooseFrom_mem _ _ (by simp)
        have herase_len :
            ((q :: pool').erase (chooseFrom (q :: pool') (σ k))).length =
              (q :: pool').length - 1 :=
          List.length_erase_of_mem hmemc
        have hfull₁ : rest.length =
            ((q :: pool').erase (chooseFrom (q :: pool') (σ k))).length := by
          rw [herase_len]
          simp only [List.length_cons] at hfull ⊢
          omega
        have hrec := ih ((q :: pool').erase (chooseFrom (q :: pool') (σ k)))
          a' a₁ pool₁ (k + 1) k₁ (hnd.erase _) hfull₁ h r
        have hupd := appendAssign_lookup _ t _ _ happ r
        by_cases hr : r = chooseFrom (q :: pool') (σ k)
        · have hnm : r ∉ (q :: pool').erase (chooseFrom (q :: pool') (σ k)) :=
            hr ▸ hnd.not_mem_erase
          have hmem : r ∈ q :: pool' := hr ▸ hmemc
          rw [if_neg hnm] at hrec
          rw [hupd, if_pos hr] at hrec
          simp only [List.length_append, List.length_cons, List.length_nil] at hrec
          rw [if_pos hmem]
          omega
        · rw [hupd, if_neg hr, List.append_nil] at hrec
          by_cases hmem : r ∈ q :: pool'
          · rw [if_pos ((List.mem_erase_of_ne hr).mpr hmem)] at hrec
            rw [if_pos hmem]
            omega
          · have hnm' : r ∉ (q :: pool').erase (chooseFrom (q :: pool') (σ k)) :=
              fun hcon => hmem (List.erase_subset _ _ hcon)
            rw [if_neg hnm'] at hrec
            rw [if_neg hmem]
            omega

/-- Master lemma for the `for segment in self.segmented_teams` loop: with
every segment at most the pool size and every pool member a dict key, the
loop succeeds, the final counter counts one draw per team, the key
sequence is preserved, the dict values gain exactly the segments' teams
(as a multiset), and each name's list gains one ordered contribution per
segment, drawn from that segment. -/
theorem assignSegsLoop_spec (σ : Nat → Nat) (ps : List String) :
    ∀ (segs : List (List String)) (a : Assignments) (k : Nat),
      (∀ seg ∈ segs, seg.length ≤ ps.length) →
      (∀ p ∈ ps, p ∈ keysOf a) →
      ∃ a₁ k₁,
        assignSegsLoop σ ps segs a k = some (a₁, k₁) ∧
        k₁ = k + (segs.map List.length).sum ∧
        keysOf a₁ = keysOf a ∧
        List.Perm (valuesJoin a₁) (segs.flatten ++ valuesJoin a) ∧
        (∀ r, ∃ contribs, List.Forall₂ (fun c seg => c ⊆ seg) contribs segs ∧
          lookupA a₁ r = lookupA a r ++ contribs.flatten) := by
  intro segs
  induction segs with
  | nil =>
    intro a k _ _
    exact ⟨a, k, rfl, by simp, rfl, by simp,
      fun r => ⟨[], List.Forall₂.nil, by simp⟩⟩
  | cons seg segs ih =>
    intro a k hlens hkeys
    obtain ⟨a₁, pool₁, hdl, -, -, hkeys₁, hperm₁, hcontrib₁⟩ :=
      drawLoop_spec σ seg ps a k (hlens seg (by simp)) hkeys
    have hkeys₁' : ∀ p ∈ ps, p ∈ keysOf a₁ := fun p hp => hkeys₁ ▸ hkeys p hp
    obtain ⟨a₂, k₂, hrec, hk₂, hkeys₂, hperm₂, hcontrib₂⟩ :=
      ih a₁ (k + seg.length) (fun s hs => hlens s (by simp [hs])) hkeys₁'
    refine ⟨a₂, k₂, ?_, ?_, ?_, ?_, ?_⟩
    · simp only [assignSegsLoop, assign_from_segments, hdl, hrec]
    · simp only [List.map_cons, List.sum_cons] at hk₂ ⊢
      omega
    · exact hkeys₂.trans hkeys₁
    · have h₁ : List.Perm (segs.flatten ++ valuesJoin a₁)
          (segs.flatten ++ (seg ++ valuesJoin a)) :=
        List.Perm.append_left _ hperm₁
      have h₂ : segs.flatten ++ (seg ++ valuesJoin a) =
          (segs.flatten ++ seg) ++ valuesJoin a := by
        simp
      have h₃ : List.Perm ((segs.flatten ++ seg) ++ valuesJoin a)
          ((seg ++ segs.flatten) ++ valuesJoin a) :=
        List.Perm.append_right _ (List.perm_append_comm)
      have hgoal : List.Perm (valuesJoin a₂) ((seg ++ segs.flatten) ++ valuesJoin a) :=
        hperm₂.trans ((h₂ ▸ h₁).trans h₃)
      simpa using hgoal
    · intro r
      obtain ⟨c, hc, hcs⟩ := hcontrib₁ r
      obtain ⟨contribs, hf, hl⟩ := hcontrib₂ r
      refine ⟨c :: contribs, List.Forall₂.cons hcs hf, ?_⟩
      rw [hl, hc, List.flatten_cons, List.append_assoc]

/-- With duplicate-free participants and full segments, each participant's
list grows by exactly one per segment across the whole loop. -/
theorem assignSegsLoop_full (σ : Nat → Nat) (ps : List String) (hnd : ps.Nodup) :
    ∀ (segs : List (List String)) (a a₁ : Assignments) (k k₁ : Nat),
      (∀ seg ∈ segs, seg.length = ps.length) →
      assignSegsLoop σ ps segs a k = some (a₁, k₁) →
      ∀ r ∈ ps, (lookupA a₁ r).length = (lookupA a r).length + segs.length := by
  intro segs
  induction segs with
  | nil =>
    intro a a₁ k k₁ _ h r _
    simp only [assignSegsLoop, Option.some_inj, Prod.mk.injEq] at h
    obtain ⟨rfl, rfl⟩ := h
    simp
  | cons seg segs ih =>
    intro a a₁ k k₁ hlens h r hr
    cases hafs : assign_from_segments σ ps seg a k with
    | none =>
      simp only [assignSegsLoop, hafs] at h
      exact Option.noConfusion h
    | some res =>
      obtain ⟨a', k'⟩ := res
      simp only [assignSegsLoop, hafs] at h
      cases hdl : drawLoop σ seg ps a k with
      | none =>
        simp only [assign_from_segments, hdl] at hafs
        exact Option.noConfusion hafs
      | some res₂ =>
        obtain ⟨a'', pool'', k''⟩ := res₂
        simp only [assign_from_segments, hdl, Option.some_inj, Prod.mk.injEq] at hafs
        obtain ⟨rfl, rfl⟩ := hafs
        have hfull := drawLoop_full_lookup σ seg ps a a'' pool'' k k'' hnd
          (hlens seg (by simp)) hdl r
        have hrec := ih a'' a₁ k'' k₁ (fun s hs => hlens s (by simp [hs])) h r hr
        rw [if_pos hr] at hfull
        simp only [List.length_cons]
        omega

/-! ### Claim theorems -/

/-- C2: with at least one participant, `assign_teams` completes for every
random outcome and conserves the teams: the concatenation of all
participants' assignment lists contains each team exactly as often as the
input team list does (so a team listed once is assigned to exactly one
participant exactly once), and the total number of assigned teams equals
the number of teams. -/
theorem assign_teams_conserves_teams (ps ts : List String) (σ : Nat → Nat)
    (h : ps ≠ []) :
    ∃ s s' k', mkSweepstake ps ts = some s ∧ assign_teams σ s 0 = some (s', k') ∧
      (∀ t, (valuesJoin s'.assignments).count t = ts.count t) ∧
      (valuesJoin s'.assignments).length = ts.length := by
  have hplen : 1 ≤ ps.length := List.length_pos.mpr h
  obtain ⟨segs, hsegs, hflat, hbound, -⟩ := segment_teams_some ps ts hplen
  have hmk : mkSweepstake ps ts =
      some ⟨ps, ts, segs, initAssignments ps⟩ := by
    simp [mkSweepstake, hsegs]
  have hkeys : ∀ p ∈ ps, p ∈ keysOf (initAssignments ps) := by
    intro p hp
    rw [keysOf_init]
    exact mem_distinctKeys ps p hp
  have hlens : ∀ seg ∈ segs, seg.length ≤ ps.length := fun seg hseg =>
    le_trans (hbound seg hseg).2 (min_le_left _ _)
  obtain ⟨a₁, k₁, hloop, -, -, hperm, -⟩ :=
    assignSegsLoop_spec σ ps segs (initAssignments ps) 0 hlens hkeys
  rw [valuesJoin_init, List.append_nil, hflat] at hperm
  refine ⟨⟨ps, ts, segs, initAssignments ps⟩,
    ⟨ps, ts, segs, a₁⟩, k₁, hmk, ?_, fun t => hperm.count_eq t, hperm.length_eq⟩
  simp only [assign_teams, hloop]

/-- Witness for C2: two participants, three teams, the all-zeros oracle. -/
theorem assign_teams_conserves_teams_witness :
    (["A", "B"] : List String) ≠ [] ∧
    (∃ s s' k', mkSweepstake ["A", "B"] ["T1", "T2", "T3"] = some s ∧
      assign_teams zeroChoice s 0 = some (s', k') ∧
      (∀ t, (valuesJoin s'.assignments).count t =
        (["T1", "T2", "T3"] : List String).count t) ∧
      (valuesJoin s'.assignments).length =
        (["T1", "T2", "T3"] : List String).length) :=
  ⟨by decide, assign_teams_conserves_teams ["A", "B"] ["T1", "T2", "T3"]
    zeroChoice (by decide)⟩

/-- C3 counterexample: the claim asserts for EVERY input with at least one
participant that no participant's list receives more than one team from
one segment.  With the duplicated name list `["A", "A"]` and teams
`["T1", "T2"]` there is a single segment `["T1", "T2"]`, yet under the
all-zeros oracle the name `"A"` is drawn twice (once per duplicate pool
slot) and its list receives both teams of that one segment. -/
theorem duplicate_names_two_teams_one_segment :
    mkSweepstake ["A", "A"] ["T1", "T2"] =
      some ⟨["A", "A"], ["T1", "T2"], [["T1", "T2"]], [("A", [])]⟩ ∧
    assign_teams zeroChoice
        ⟨["A", "A"], ["T1", "T2"], [["T1", "T2"]], [("A", [])]⟩ 0 =
      some (⟨["A", "A"], ["T1", "T2"], [["T1", "T2"]], [("A", ["T1", "T2"])]⟩, 2) ∧
    lookupA [("A", ["T1", "T2"])] "A" = ["T1", "T2"] := by
  refine ⟨by decide, by decide, by decide⟩

/-- C3 (amended with pairwise-distinct participant names): when the
participant names are pairwise distinct, one run of
`assign_from_segments` appends at most one team to any participant's
list, i.e. no participant receives more than one team from the same
segment. -/
theorem assign_from_segments_at_most_one_per_segment (σ : Nat → Nat)
    (ps seg : List String) (hnd : ps.Nodup) (a a₁ : Assignments) (k k₁ : Nat)
    (h : assign_from_segments σ ps seg a k = some (a₁, k₁)) :
    ∀ r, (lookupA a₁ r).length ≤ (lookupA a r).length + 1 := by
  cases hdl : drawLoop σ seg ps a k with
  | none =>
    simp only [assign_from_segments, hdl] at h
    exact Option.noConfusion h
  | some res =>
    obtain ⟨a', pool', k'⟩ := res
    simp only [assign_from_segments, hdl, Option.some_inj, Prod.mk.injEq] at h
    obtain ⟨rfl, rfl⟩ := h
    intro r
    have hb := drawLoop_nodup_lookup σ seg ps a a' pool' k k' hnd hdl r
    split at hb <;> omega

/-- Witness for C3's amended theorem: distinct names, one segment. -/
theorem assign_from_segments_at_most_one_per_segment_witness :
    (["A", "B"] : List String).Nodup ∧
    assign_from_segments zeroChoice ["A", "B"] ["T1", "T2"]
      [("A", []), ("B", [])] 0 = some ([("A", ["T1"]), ("B", ["T2"])], 2) ∧
    (∀ r, (lookupA [("A", ["T1"]), ("B", ["T2"])] r).length ≤
      (lookupA [("A", []), ("B", [])] r).length + 1) :=
  ⟨by decide, by decide,
    assign_from_segments_at_most_one_per_segment zeroChoice ["A", "B"]
      ["T1", "T2"] (by decide) [("A", []), ("B", [])]
      [("A", ["T1"]), ("B", ["T2"])] 0 2 (by decide)⟩

/-- C4: with at least one participant, `segment_teams` terminates and
splits the teams into consecutive chunks whose concatenation in order is
exactly the team list; every chunk has length between 1 and
`min(len(participants), len(teams))` and every chunk but the last has
exactly that length; in particular three participants and seven teams
give segment sizes `[3, 3, 1]`. -/
theorem segment_teams_chunks (ps ts : List String) (h : 1 ≤ ps.length) :
    (∃ segs, segment_teams ps ts = some segs ∧
      segs.flatten = ts ∧
      (∀ s ∈ segs, 1 ≤ s.length ∧ s.length ≤ min ps.length ts.length) ∧
      (∀ s ∈ segs.dropLast, s.length = min ps.length ts.length)) ∧
    (segment_teams ["A", "B", "C"]
        ["T1", "T2", "T3", "T4", "T5", "T6", "T7"]).map
      (fun segs => segs.map List.length) = some [3, 3, 1] := by
  refine ⟨?_, by decide⟩
  obtain ⟨segs, hsegs, hflat, hbound, hdrop⟩ := segment_teams_some ps ts h
  exact ⟨segs, hsegs, hflat,
    fun s hs => ⟨List.length_pos.mpr (hbound s hs).1, (hbound s hs).2⟩, hdrop⟩

/-- Witness for C4: three participants, seven teams. -/
theorem segment_teams_chunks_witness :
    1 ≤ (["A", "B", "C"] : List String).length ∧
    ((∃ segs, segment_teams ["A", "B", "C"]
        ["T1", "T2", "T3", "T4", "T5", "T6", "T7"] = some segs ∧
      segs.flatten = ["T1", "T2", "T3", "T4", "T5", "T6", "T7"] ∧
      (∀ s ∈ segs, 1 ≤ s.length ∧ s.length ≤
        min (["A", "B", "C"] : List String).length
          (["T1", "T2", "T3", "T4", "T5", "T6", "T7"] : List String).length) ∧
      (∀ s ∈ segs.dropLast, s.length =
        min (["A", "B", "C"] : List String).length
          (["T1", "T2", "T3", "T4", "T5", "T6", "T7"] : List String).length)) ∧
    (segment_teams ["A", "B", "C"]
        ["T1", "T2", "T3", "T4", "T5", "T6", "T7"]).map
      (fun segs => segs.map List.length) = some [3, 3, 1]) :=
  ⟨by decide, segment_teams_chunks ["A", "B", "C"]
    ["T1", "T2", "T3", "T4", "T5", "T6", "T7"] (by decide)⟩

/-- C5: for a segment no longer than the participant list (with the
participants present as dict keys, as construction guarantees),
`assign_from_segments` succeeds and performs exactly `len(segment)`
draws (the draw counter advances by exactly the segment length), and
after any first `n` draws the pool has shrunk by exactly `n`, so every
one of the `len(segment)` draws happens on a pool of positive size: the
empty-pool error branch is unreachable. -/
theorem assign_from_segments_draw_counts (σ : Nat → Nat) (ps seg : List String)
    (a : Assignments) (k : Nat)
    (hlen : seg.length ≤ ps.length) (hkeys : ∀ p ∈ ps, p ∈ keysOf a) :
    (∃ a₁, assign_from_segments σ ps seg a k = some (a₁, k + seg.length)) ∧
    (∀ n, n ≤ seg.length →
      ∃ a' pool', drawLoop σ (seg.take n) ps a k = some (a', pool', k + n) ∧
        pool'.length + n = ps.length) := by
  constructor
  · obtain ⟨a₁, pool₁, hdl, -, -, -, -, -⟩ :=
      drawLoop_spec σ seg ps a k hlen hkeys
    exact ⟨a₁, by simp [assign_from_segments, hdl]⟩
  · intro n hn
    have htake : (seg.take n).length = n := by
      rw [List.length_take]
      omega
    obtain ⟨a', pool', hdl, hplen, -, -, -, -⟩ :=
      drawLoop_spec σ (seg.take n) ps a k (by omega) hkeys
    rw [htake] at hdl hplen
    exact ⟨a', pool', hdl, hplen⟩

/-- Witness for C5: two participants, a two-team segment. -/
theorem assign_from_segments_draw_counts_witness :
    (["T1", "T2"] : List String).length ≤ (["A", "B"] : List String).length ∧
    (∀ p ∈ (["A", "B"] : List String), p ∈ keysOf [("A", []), ("B", [])]) ∧
    ((∃ a₁, assign_from_segments zeroChoice ["A", "B"] ["T1", "T2"]
        [("A", []), ("B", [])] 0 = some (a₁, 0 + 2)) ∧
    (∀ n, n ≤ (["T1", "T2"] : List String).length →
      ∃ a' pool', drawLoop zeroChoice ((["T1", "T2"] : List String).take n)
          ["A", "B"] [("A", []), ("B", [])] 0 = some (a', pool', 0 + n) ∧
        pool'.length + n = (["A", "B"] : List String).length)) :=
  ⟨by decide, by decide,
    assign_from_segments_draw_counts zeroChoice ["A", "B"] ["T1", "T2"]
      [("A", []), ("B", [])] 0 (by decide) (by decide)⟩

/-- C6: with at least one participant, for every random outcome each
participant's final list decomposes as one contribution per segment,
concatenated in segment-processing order, each contribution containing
only teams of its own segment — teams from earlier segments appear before
teams from later segments. -/
theorem assign_teams_segment_order (ps ts : List String) (σ : Nat → Nat)
    (h : ps ≠ []) :
    ∃ s s' k', mkSweepstake ps ts = some s ∧ assign_teams σ s 0 = some (s', k') ∧
      ∀ r, ∃ contribs,
        List.Forall₂ (fun c seg => c ⊆ seg) contribs s.segmented_teams ∧
        lookupA s'.assignments r = contribs.flatten := by
  have hplen : 1 ≤ ps.length := List.length_pos.mpr h
  obtain ⟨segs, hsegs, hflat, hbound, -⟩ := segment_teams_some ps ts hplen
  have hmk : mkSweepstake ps ts =
      some ⟨ps, ts, segs, initAssignments ps⟩ := by
    simp [mkSweepstake, hsegs]
  have hkeys : ∀ p ∈ ps, p ∈ keysOf (initAssignments ps) := by
    intro p hp
    rw [keysOf_init]
    exact mem_distinctKeys ps p hp
  have hlens : ∀ seg ∈ segs, seg.length ≤ ps.length := fun seg hseg =>
    le_trans (hbound seg hseg).2 (min_le_left _ _)
  obtain ⟨a₁, k₁, hloop, -, -, -, hcontrib⟩ :=
    assignSegsLoop_spec σ ps segs (initAssignments ps) 0 hlens hkeys
  refine ⟨⟨ps, ts, segs, initAssignments ps⟩, ⟨ps, ts, segs, a₁⟩, k₁, hmk, ?_, ?_⟩
  · simp only [assign_teams, hloop]
  · intro r
    obtain ⟨contribs, hf, hl⟩ := hcontrib r
    rw [lookupA_init] at hl
    exact ⟨contribs, hf, by simpa using hl⟩

/-- Witness for C6: two participants, three teams, the all-zeros oracle. -/
theorem assign_teams_segment_order_witness :
    (["A", "B"] : List String) ≠ [] ∧
    (∃ s s' k', mkSweepstake ["A", "B"] ["T1", "T2", "T3"] = some s ∧
      assign_teams zeroChoice s 0 = some (s', k') ∧
      ∀ r, ∃ contribs,
        List.Forall₂ (fun c seg => c ⊆ seg) contribs s.segmented_teams ∧
        lookupA s'.assignments r = contribs.flatten) :=
  ⟨by decide, assign_teams_segment_order ["A", "B"] ["T1", "T2", "T3"]
    zeroChoice (by decide)⟩

/-- C7: construction initialises the assignment dict with one entry per
distinct participant name (keys are duplicate-free, every input name is a
key, and the key order is a subsequence of the input preserving first-seen
order, witnessed on `["A", "B", "A"]`), each entry mapped to the empty
list; in particular one participant and no teams give the dict
`{"A": []}`, zero segments, and `assign_teams` changes nothing and
performs zero draws for every oracle. -/
theorem initAssignments_distinct_first_seen (ps : List String) :
    (keysOf (initAssignments ps)).Nodup ∧
    (keysOf (initAssignments ps)).Sublist ps ∧
    (∀ p ∈ ps, p ∈ keysOf (initAssignments ps)) ∧
    (∀ kv ∈ initAssignments ps, kv.2 = ([] : List String)) ∧
    keysOf (initAssignments ["A", "B", "A"]) = ["A", "B"] ∧
    mkSweepstake ["A"] [] = some ⟨["A"], [], [], [("A", [])]⟩ ∧
    (∀ (σ : Nat → Nat) (k : Nat),
      assign_teams σ ⟨["A"], [], [], [("A", [])]⟩ k =
        some (⟨["A"], [], [], [("A", [])]⟩, k)) := by
  refine ⟨?_, ?_, ?_, initAssignments_values ps, by decide, by decide,
    fun σ k => rfl⟩
  · rw [keysOf_init]
    exact distinctKeys_nodup ps
  · rw [keysOf_init]
    exact distinctKeys_sublist ps
  · intro p hp
    rw [keysOf_init]
    exact mem_distinctKeys ps p hp

/-- C8: segmentation reads only the participant count and the team list:
two states agreeing on those produce identical segment boundaries,
whatever their prior assignment state (and with no dependence on any
random source, which segmentation never consults). -/
theorem segmentTeamsOf_depends_only_on_lengths (s₁ s₂ : Sweepstake)
    (hp : s₁.participants.length = s₂.participants.length)
    (ht : s₁.teams = s₂.teams) :
    Sweepstake.segmentTeamsOf s₁ = Sweepstake.segmentTeamsOf s₂ := by
  simp only [Sweepstake.segmentTeamsOf, segment_teams, hp, ht]

/-- Witness for C8: same participant count and teams, different names and
different prior assignment state, identical segmentation. -/
theorem segmentTeamsOf_depends_only_on_lengths_witness :
    ((⟨["A", "B"], ["T1", "T2", "T3"], [], []⟩ : Sweepstake).participants.length =
      (⟨["C", "D"], ["T1", "T2", "T3"], [["T1"]],
        [("C", ["T9"])]⟩ : Sweepstake).participants.length) ∧
    ((⟨["A", "B"], ["T1", "T2", "T3"], [], []⟩ : Sweepstake).teams =
      (⟨["C", "D"], ["T1", "T2", "T3"], [["T1"]],
        [("C", ["T9"])]⟩ : Sweepstake).teams) ∧
    Sweepstake.segmentTeamsOf ⟨["A", "B"], ["T1", "T2", "T3"], [], []⟩ =
      Sweepstake.segmentTeamsOf
        ⟨["C", "D"], ["T1", "T2", "T3"], [["T1"]], [("C", ["T9"])]⟩ :=
  ⟨by decide, by decide,
    segmentTeamsOf_depends_only_on_lengths
      ⟨["A", "B"], ["T1", "T2", "T3"], [], []⟩
      ⟨["C", "D"], ["T1", "T2", "T3"], [["T1"]], [("C", ["T9"])]⟩
      (by decide) (by decide)⟩

/-- C9: whenever `assign_teams` completes it leaves the `participants`,
`teams` and `segmented_teams` fields unchanged; only `assignments` is
mutated (the draw pool is a copy of the participants list). -/
theorem assign_teams_frame (σ : Nat → Nat) (s : Sweepstake) (k : Nat)
    (s' : Sweepstake) (k' : Nat) (h : assign_teams σ s k = some (s', k')) :
    s'.participants = s.participants ∧ s'.teams = s.teams ∧
      s'.segmented_teams = s.segmented_teams := by
  cases hloop : assignSegsLoop σ s.participants s.segmented_teams s.assignments k with
  | none =>
    simp only [assign_teams, hloop] at h
    exact Option.noConfusion h
  | some res =>
    obtain ⟨a₁, k₁⟩ := res
    simp only [assign_teams, hloop, Option.some_inj, Prod.mk.injEq] at h
    obtain ⟨rfl, rfl⟩ := h
    exact ⟨rfl, rfl, rfl⟩

/-- Witness for C9: a complete concrete run. -/
theorem assign_teams_frame_witness :
    assign_teams zeroChoice ⟨["A"], ["T1"], [["T1"]], [("A", [])]⟩ 0 =
      some (⟨["A"], ["T1"], [["T1"]], [("A", ["T1"])]⟩, 1) ∧
    ((⟨["A"], ["T1"], [["T1"]], [("A", ["T1"])]⟩ : Sweepstake).participants =
        (⟨["A"], ["T1"], [["T1"]], [("A", [])]⟩ : Sweepstake).participants ∧
      (⟨["A"], ["T1"], [["T1"]], [("A", ["T1"])]⟩ : Sweepstake).teams =
        (⟨["A"], ["T1"], [["T1"]], [("A", [])]⟩ : Sweepstake).teams ∧
      (⟨["A"], ["T1"], [["T1"]], [("A", ["T1"])]⟩ : Sweepstake).segmented_teams =
        (⟨["A"], ["T1"], [["T1"]], [("A", [])]⟩ : Sweepstake).segmented_teams) :=
  ⟨by decide,
    assign_teams_frame zeroChoice ⟨["A"], ["T1"], [["T1"]], [("A", [])]⟩ 0
      ⟨["A"], ["T1"], [["T1"]], [("A", ["T1"])]⟩ 1 (by decide)⟩

/-- C10: with pairwise-distinct participant names, (1) one run of
`assign_from_segments` on a full segment (length equal to the participant
count) gives every participant exactly one team of that segment, for
every oracle; (2) consequently, when the team count is a multiple of the
participant count, every participant's final count after the whole
pipeline is `len(teams) / len(participants)`. -/
theorem full_segments_uniform_assignment (ps : List String) (hnd : ps.Nodup)
    (hne : ps ≠ []) :
    (∀ (σ : Nat → Nat) (seg : List String) (a : Assignments) (k : Nat),
      seg.length = ps.length → (∀ p ∈ ps, p ∈ keysOf a) →
      ∃ a₁, assign_from_segments σ ps seg a k = some (a₁, k + seg.length) ∧
        ∀ r ∈ ps, (lookupA a₁ r).length = (lookupA a r).length + 1) ∧
    (∀ (ts : List String) (σ : Nat → Nat), ps.length ∣ ts.length →
      ∃ s s' k', mkSweepstake ps ts = some s ∧
        assign_teams σ s 0 = some (s', k') ∧
        ∀ r ∈ ps, (lookupA s'.assignments r).length =
          ts.length / ps.length) := by
  have hplen : 1 ≤ ps.length := List.length_pos.mpr hne
  constructor
  · intro σ seg a k hfull hkeys
    obtain ⟨a₁, pool₁, hdl, -, -, -, -, -⟩ :=
      drawLoop_spec σ seg ps a k (le_of_eq hfull) hkeys
    refine ⟨a₁, by simp [assign_from_segments, hdl], ?_⟩
    intro r hr
    have hf := drawLoop_full_lookup σ seg ps a a₁ pool₁ k (k + seg.length)
      hnd hfull hdl r
    rw [if_pos hr] at hf
    exact hf
  · intro ts σ hdvd
    have hkeys : ∀ p ∈ ps, p ∈ keysOf (initAssignments ps) := by
      intro p hp
      rw [keysOf_init]
      exact mem_distinctKeys ps p hp
    by_cases hts : ts = []
    · subst hts
      refine ⟨⟨ps, [], [], initAssignments ps⟩, ⟨ps, [], [], initAssignments ps⟩,
        0, ?_, rfl, ?_⟩
      · simp [mkSweepstake, segment_teams, segmentLoop]
      · intro r hr
        simp [lookupA_init]
    · have htlen : 1 ≤ ts.length := List.length_pos.mpr hts
      have hle : ps.length ≤ ts.length := Nat.le_of_dvd htlen hdvd
      have hmin : min ps.length ts.length = ps.length := Nat.min_eq_left hle
      obtain ⟨segs, hsegs, hfull, hcount⟩ :=
        segmentLoop_exact ps.length hplen ts.length ts le_rfl hdvd
      have hmk : mkSweepstake ps ts = some ⟨ps, ts, segs, initAssignments ps⟩ := by
        simp only [mkSweepstake, segment_teams, hmin, hsegs]
      obtain ⟨a₁, k₁, hloop, -, -, -, -⟩ :=
        assignSegsLoop_spec σ ps segs (initAssignments ps) 0
          (fun s hs => le_of_eq (hfull s hs)) hkeys
      refine ⟨⟨ps, ts, segs, initAssignments ps⟩, ⟨ps, ts, segs, a₁⟩, k₁,
        hmk, ?_, ?_⟩
      · simp only [assign_teams, hloop]
      · intro r hr
        have hgrow := assignSegsLoop_full σ ps hnd segs (initAssignments ps)
          a₁ 0 k₁ hfull hloop r hr
        rw [lookupA_init] at hgrow
        have hdiv : ts.length / ps.length = segs.length := by
          rw [← hcount]
          exact Nat.mul_div_left segs.length (by omega)
        rw [hdiv]
        simpa using hgrow

/-- Witness for C10: one participant, two teams. -/
theorem full_segments_uniform_assignment_witness :
    (["A"] : List String).Nodup ∧ (["A"] : List String) ≠ [] ∧
    ((∀ (σ : Nat → Nat) (seg : List String) (a : Assignments) (k : Nat),
      seg.length = (["A"] : List String).length →
      (∀ p ∈ (["A"] : List String), p ∈ keysOf a) →
      ∃ a₁, assign_from_segments σ ["A"] seg a k = some (a₁, k + seg.length) ∧
        ∀ r ∈ (["A"] : List String),
          (lookupA a₁ r).length = (lookupA a r).length + 1) ∧
    (∀ (ts : List String) (σ : Nat → Nat),
      (["A"] : List String).length ∣ ts.length →
      ∃ s s' k', mkSweepstake ["A"] ts = some s ∧
        assign_teams σ s 0 = some (s', k') ∧
        ∀ r ∈ (["A"] : List String), (lookupA s'.assignments r).length =
          ts.length / (["A"] : List String).length)) :=
  ⟨by decide, by decide,
    full_segments_uniform_assignment ["A"] (by decide) (by decide)⟩

end SweepstakePy
